import Mathlib

/-!
Verification of the prio-graph-scheduler design against its code.

The crate root `lib.rs` declares the scheduler modules
(`transaction_priority_id`, `transaction_state_container`,
`thread_aware_account_locks`, `in_flight_tracker`, `prio_graph_scheduler`)
but only `lib.rs` itself (the `MockImmutableDeserializedPacket` test
implementation and the `TARGET_NUM_TRANSACTIONS_PER_BATCH` constant) and
`deserializable_packet.rs` (the `DeserializableTxPacket` trait) are present.
Components whose source is absent are modelled from the design document and
marked `Modelled from the spec:`; everything else is embedded directly from
the Rust source in `lib.rs`.
-/

namespace PrioGraphScheduler

/-! ## Definitions -/

/-- Modelled from the spec: the module `transaction_priority_id` is declared
in `lib.rs` but its source file is absent.  The spec defines a Priority
Identifier as the pair `{priority: u64, sequence: u64}`. -/
structure TransactionPriorityId where
  priority : Nat
  sequence : Nat
deriving DecidableEq, Repr

/-- Modelled from the spec: the total order on Priority Identifiers —
"higher `priority` sorts first; equal `priority` breaks ties by lower
`sequence` (earlier arrival wins)".  `sortsBefore a b` holds when `a` is
scheduled ahead of `b`. -/
def TransactionPriorityId.sortsBefore (a b : TransactionPriorityId) : Bool :=
  b.priority < a.priority || (a.priority == b.priority && a.sequence < b.sequence)

/-- The worse (later-sorting, i.e. lower) of two Priority Identifiers. -/
def tidWorse (a b : TransactionPriorityId) : TransactionPriorityId :=
  if a.sortsBefore b then b else a

/-- The current global minimum (worst Priority Identifier) of a queue. -/
def queueMin : List TransactionPriorityId → Option TransactionPriorityId
  | [] => none
  | x :: xs => some (xs.foldl tidWorse x)

/-- Modelled from the spec: the bounded priority queue of the Transaction
State Store (module `transaction_state_container`, absent from src).  The
spec: "size ≤ capacity at all times; when at capacity, only a new entry
whose priority exceeds the current minimum may be admitted, and admitting it
evicts the minimum."  Returns (new queue, evicted entry, admitted flag). -/
def boundedQueuePush (cap : Nat) (q : List TransactionPriorityId)
    (x : TransactionPriorityId) :
    List TransactionPriorityId × Option TransactionPriorityId × Bool :=
  if q.length < cap then (x :: q, none, true)
  else
    match queueMin q with
    | none => (q, none, false)
    | some m => if x.sortsBefore m then (x :: q.erase m, some m, true) else (q, none, false)

/-- Run a sequence of inserts on an initially empty bounded queue. -/
def runQueue (cap : Nat) (xs : List TransactionPriorityId) : List TransactionPriorityId :=
  xs.foldl (fun q x => (boundedQueuePush cap q x).1) []

/-- Modelled from the spec: a per-account lock entry of the Thread-Aware
Account Locks table (module `thread_aware_account_locks`, absent from src):
`{ writer: optional thread-id, readers: set of thread-id }`. -/
structure LockEntry where
  writer : Option Nat
  readers : List Nat
deriving DecidableEq, Repr

/-- The logically absent lock entry: no writer and no readers. -/
def initEntry : LockEntry := { writer := none, readers := [] }

/-- The lock table maps each account (modelled as `Nat`) to its entry. -/
def LockTable : Type := Nat → LockEntry

/-- Does the entry's writer field allow thread `t` to proceed (no writer, or
`t` itself is the writer)? -/
def writerAllows (e : LockEntry) (t : Nat) : Bool :=
  match e.writer with
  | none => true
  | some u => u == t

/-- Modelled from the spec: the per-account conflict rule of `try_lock` —
"a write request conflicts if any other thread holds a reader or writer lock
on that account; a read request conflicts if any other thread holds a writer
lock."  `w = true` means the request is a write. -/
def entryCompatible (e : LockEntry) (t : Nat) (w : Bool) : Bool :=
  if w then writerAllows e t && e.readers.all (fun r => r == t)
  else writerAllows e t

/-- Modelled from the spec: granting one account's lock to thread `t`.  A
write grant makes `t` the writer (its own read mark, if any, is subsumed so
that "`writer` is set ⇒ `readers` is empty" keeps holding); a read grant by
the thread already holding the write lock is absorbed; otherwise the thread
is added to the reader set (at most once per account). -/
def applyEntry (e : LockEntry) (t : Nat) (w : Bool) : LockEntry :=
  if w then { writer := some t, readers := [] }
  else
    match e.writer with
    | some _ => e
    | none => { e with readers := if t ∈ e.readers then e.readers else t :: e.readers }

/-- The kind of access a request list asks for on account `a`: `some true`
if any entry writes `a`, `some false` if `a` is only read, `none` if `a` is
not requested. -/
def requestedWrite (accs : List (Nat × Bool)) (a : Nat) : Option Bool :=
  if accs.any (fun p => p.1 == a && p.2) then some true
  else if accs.any (fun p => p.1 == a) then some false
  else none

/-- Modelled from the spec: the all-or-nothing conflict check of `try_lock`
(and of the non-mutating probe `thread_compatible`): every requested account
must be individually compatible for thread `t`. -/
def allCompatible (table : LockTable) (accs : List (Nat × Bool)) (t : Nat) : Bool :=
  accs.all (fun p => entryCompatible (table p.1) t p.2)

/-- Modelled from the spec: the atomic update of all entries on a successful
`try_lock` grant. -/
def lockAccounts (table : LockTable) (accs : List (Nat × Bool)) (t : Nat) : LockTable :=
  fun a =>
    match requestedWrite accs a with
    | none => table a
    | some w => applyEntry (table a) t w

/-- Modelled from the spec: `unlock` on one entry — "releases this thread's
reader/writer marks". -/
def unlockEntry (e : LockEntry) (t : Nat) : LockEntry :=
  { writer := match e.writer with
      | some u => if u == t then none else some u
      | none => none,
    readers := e.readers.filter (fun r => !(r == t)) }

/-- Modelled from the spec: `unlock(accounts, thread)` across the table. -/
def unlockAccounts (table : LockTable) (accs : List Nat) (t : Nat) : LockTable :=
  fun a => if a ∈ accs then unlockEntry (table a) t else table a

/-- An operation on the Thread-Aware Account Locks table. -/
inductive LockOp where
  | tryLock (accs : List (Nat × Bool)) (t : Nat)
  | unlock (accs : List Nat) (t : Nat)

/-- Modelled from the spec: one `try_lock`/`unlock` step.  A `try_lock`
whose conflict check fails leaves the table unchanged. -/
def lockStep (table : LockTable) : LockOp → LockTable
  | .tryLock accs t => if allCompatible table accs t then lockAccounts table accs t else table
  | .unlock accs t => unlockAccounts table accs t

/-- Run a sequence of lock operations from the all-absent table. -/
def runLocks (ops : List LockOp) : LockTable :=
  ops.foldl lockStep (fun _ => initEntry)

/-- The spec's per-entry invariants: "`writer` is set ⇒ `readers` is empty"
and "`readers` non-empty ⇒ `writer` is unset". -/
def entryInv (e : LockEntry) : Prop :=
  (e.writer ≠ none → e.readers = []) ∧ (e.readers ≠ [] → e.writer = none)

/-- A dispatch candidate considered by a scheduling pass: the transaction's
account access list (account, is-write) and the worker thread chosen for
it. -/
structure SchedReq where
  accs : List (Nat × Bool)
  thread : Nat

/-- State of a scheduling pass: the lock table plus the transactions
dispatched so far in this pass (in dispatch order). -/
structure PassState where
  table : LockTable
  dispatched : List SchedReq

/-- The batch of transactions dispatched to thread `t`. -/
def batchOf (dispatched : List SchedReq) (t : Nat) : List SchedReq :=
  dispatched.filter (fun r => r.thread == t)

/-- Modelled from the spec: one selection step of the Scheduler's pass
(§4.5 step 3): a candidate is dispatched to its thread only if `try_lock`
grants all of its account locks on that thread and the thread's batch has
not reached the maximum batch size; on success the locks are acquired and
the transaction is appended to the thread's outgoing batch, otherwise the
candidate is deferred and the state is unchanged. -/
def passStep (maxBatch : Nat) (st : PassState) (r : SchedReq) : PassState :=
  if allCompatible st.table r.accs r.thread = true ∧
      (batchOf st.dispatched r.thread).length < maxBatch then
    { table := lockAccounts st.table r.accs r.thread,
      dispatched := st.dispatched ++ [r] }
  else st

/-- Modelled from the spec: a whole scheduling pass over a window of
candidates, starting from a lock table carried over from earlier activity
(locks of still in-flight transactions) with no dispatches yet. -/
def runPass (maxBatch : Nat) (table : LockTable) (reqs : List SchedReq) : PassState :=
  reqs.foldl (passStep maxBatch) { table := table, dispatched := [] }

/-- Two account accesses conflict when they touch the same account and at
least one of them is a write (write-write, write-read or read-write). -/
def accessConflict (p q : Nat × Bool) : Prop :=
  p.1 = q.1 ∧ (p.2 = true ∨ q.2 = true)

/-- Two access lists contain no conflicting pair. -/
def noConflict (accs1 accs2 : List (Nat × Bool)) : Prop :=
  ∀ p ∈ accs1, ∀ q ∈ accs2, ¬ accessConflict p q

/-- Thread `t` holds the write lock on account `a`. -/
def holdsWrite (table : LockTable) (t a : Nat) : Prop :=
  (table a).writer = some t

/-- Thread `t` holds at least a read-strength lock on account `a`. -/
def holdsRead (table : LockTable) (t a : Nat) : Prop :=
  (table a).writer = some t ∨ t ∈ (table a).readers

/-- Thread `t` holds a lock matching the requested access `p`. -/
def holdsAccess (table : LockTable) (t : Nat) (p : Nat × Bool) : Prop :=
  if p.2 then holdsWrite table t p.1 else holdsRead table t p.1

/-- Pass invariant: every transaction dispatched so far still holds locks
matching all of its accesses on its thread. -/
def passInv (st : PassState) : Prop :=
  ∀ r ∈ st.dispatched, ∀ p ∈ r.accs, holdsAccess st.table r.thread p

/-- Two dispatched transactions are safe to run concurrently: either they
went to the same thread, or their access lists contain no conflicting
pair. -/
def crossThreadOk (r1 r2 : SchedReq) : Prop :=
  r1.thread ≠ r2.thread → noConflict r1.accs r2.accs

/-- Embedded from `lib.rs`: "Consumer will create chunks of transactions
from buffer with up to this size."  `pub const TARGET_NUM_TRANSACTIONS_PER_BATCH:
usize = 64;` -/
def TARGET_NUM_TRANSACTIONS_PER_BATCH : Nat := 64

/-- An operation on the In-Flight Tracker: a reserve (dispatch, `+1` count
and `+cost`) or a release (completion, `-1` count and `-cost`) for a given
thread. -/
structure IFOp where
  isReserve : Bool
  thread : Nat
  cost : Nat

/-- Modelled from the spec: per-thread In-Flight Counters
`{count, cost_sum}` (module `in_flight_tracker`, absent from src).  The
counters are modelled over `Int` so that "never negative" is a real
statement. -/
def IFState : Type := Nat → Int × Int

/-- Modelled from the spec: dispatch adjusts the thread's counters by
`(+1, +cost)`. -/
def ifReserve (s : IFState) (t : Nat) (c : Nat) : IFState :=
  fun u => if u = t then ((s t).1 + 1, (s t).2 + (c : Int)) else s u

/-- Modelled from the spec: completion adjusts the thread's counters by
`(-1, -cost)`. -/
def ifRelease (s : IFState) (t : Nat) (c : Nat) : IFState :=
  fun u => if u = t then ((s t).1 - 1, (s t).2 - (c : Int)) else s u

/-- One In-Flight Tracker step. -/
def ifStep (s : IFState) (o : IFOp) : IFState :=
  if o.isReserve then ifReserve s o.thread o.cost else ifRelease s o.thread o.cost

/-- Run a sequence of reserve/release operations from all-zero counters. -/
def runIF (ops : List IFOp) : IFState :=
  ops.foldl ifStep (fun _ => ((0 : Int), (0 : Int)))

/-- A sequence of reserve/release operations is balanced when every release
is covered by outstanding reservations on its thread: at the moment of each
release the thread has at least one outstanding dispatch and at least the
released cost outstanding.  `pend` tracks the outstanding (count, cost) per
thread.  The spec calls an uncovered release (underflow) a
"programming-error-class fault". -/
def balancedFrom (pend : Nat → Nat × Nat) : List IFOp → Bool
  | [] => true
  | o :: rest =>
    if o.isReserve then
      balancedFrom
        (fun u => if u = o.thread then ((pend o.thread).1 + 1, (pend o.thread).2 + o.cost) else pend u)
        rest
    else
      decide (1 ≤ (pend o.thread).1) && decide (o.cost ≤ (pend o.thread).2) &&
      balancedFrom
        (fun u => if u = o.thread then ((pend o.thread).1 - 1, (pend o.thread).2 - o.cost) else pend u)
        rest

/-! ### Embedding of the Rust source in `lib.rs` (tests module)

Types owned by external crates (`VersionedTransaction`,
`SanitizedVersionedTransaction`, `SanitizedTransaction`, hashes, loaded
addresses, lookups, error payloads) are opaque to this crate and are
modelled as `Nat`; the externally provided functions acting on them are
collected in environment structures (`PacketEnv`, `BankEnv`) so that the
control flow of the embedded functions is exactly that of the source. -/

/-- A network packet as used by `lib.rs`: `data i` models
`Packet::data(i..)` (returning `None` when the range is unavailable), and
`is_simple_vote_tx` models `packet.meta().is_simple_vote_tx()`. -/
structure Packet where
  data : Nat → Option (List Nat)
  is_simple_vote_tx : Bool

/-- The two fields of `ComputeBudgetLimits` destructured by
`MockImmutableDeserializedPacket::new` (the rest is dropped by `..`). -/
structure ComputeBudgetLimits where
  compute_unit_price : Nat
  compute_unit_limit : Nat
deriving DecidableEq, Repr

/-- Embedded from `lib.rs`: `MockDeserializedPacketError`. -/
inductive MockDeserializedPacketError where
  | ShortVecError
  | DeserializationError
  | SignatureOverflowed (size : Nat)
  | SanitizeError
  | PrioritizationFailure
deriving DecidableEq, Repr

/-- The external collaborators called by `MockImmutableDeserializedPacket::new`
and `packet_message`. -/
structure PacketEnv where
  deserialize_slice : Packet → Except Unit Nat
  sanitized_try_from : Nat → Except Unit Nat
  decode_shortu16_len : List Nat → Option (Nat × Nat)
  hash_raw_message : List Nat → Nat
  process_compute_budget_instructions : Nat → Except Unit ComputeBudgetLimits

/-- `usize::MAX` for the 64-bit targets this crate builds on. -/
def usizeMax : Nat := 2 ^ 64 - 1

/-- `usize::checked_mul`. -/
def checkedMul (a b : Nat) : Option Nat :=
  if a * b ≤ usizeMax then some (a * b) else none

/-- `usize::checked_add`. -/
def checkedAdd (a b : Nat) : Option Nat :=
  if a + b ≤ usizeMax then some (a + b) else none

/-- `size_of::<Signature>()`. -/
def signatureSize : Nat := 64

/-- Embedded from `lib.rs`: `packet_message` — decode the signature count,
then return the message bytes starting after the signatures, with checked
offset arithmetic. -/
def packet_message (env : PacketEnv) (packet : Packet) :
    Except MockDeserializedPacketError (List Nat) :=
  match (packet.data 0).bind (fun bytes => env.decode_shortu16_len bytes) with
  | none => Except.error MockDeserializedPacketError.ShortVecError
  | some (sig_len, sig_size) =>
    match ((checkedMul sig_len signatureSize).bind
        (fun v => checkedAdd v sig_size)).bind
        (fun msg_start => packet.data msg_start) with
    | none => Except.error (MockDeserializedPacketError.SignatureOverflowed sig_size)
    | some msg => Except.ok msg

/-- Embedded from `lib.rs`: the fields of `MockImmutableDeserializedPacket`. -/
structure MockImmutableDeserializedPacket where
  original_packet : Packet
  transaction : Nat
  message_hash : Nat
  is_simple_vote : Bool
  compute_unit_price : Nat
  compute_unit_limit : Nat

/-- Embedded from `lib.rs`: `MockImmutableDeserializedPacket::new`.
Deserializes and sanitizes the packet, hashes the message bytes, drops the
transaction if prioritization fails, and zeroes the compute unit price for
simple vote transactions. -/
def MockImmutableDeserializedPacket.new (env : PacketEnv) (packet : Packet) :
    Except MockDeserializedPacketError MockImmutableDeserializedPacket :=
  match env.deserialize_slice packet with
  | Except.error _ => Except.error MockDeserializedPacketError.DeserializationError
  | Except.ok versioned_transaction =>
    match env.sanitized_try_from versioned_transaction with
    | Except.error _ => Except.error MockDeserializedPacketError.SanitizeError
    | Except.ok sanitized_transaction =>
      match packet_message env packet with
      | Except.error e => Except.error e
      | Except.ok message_bytes =>
        let message_hash := env.hash_raw_message message_bytes
        let is_simple_vote := packet.is_simple_vote_tx
        match env.process_compute_budget_instructions sanitized_transaction with
        | Except.error _ => Except.error MockDeserializedPacketError.PrioritizationFailure
        | Except.ok limits =>
          let compute_unit_price := if is_simple_vote then 0 else limits.compute_unit_price
          Except.ok
            { original_packet := packet
              transaction := sanitized_transaction
              message_hash := message_hash
              is_simple_vote := is_simple_vote
              compute_unit_price := compute_unit_price
              compute_unit_limit := limits.compute_unit_limit }

/-- The bank-side collaborators called by `build_sanitized_transaction` and
`resolve_addresses_with_deactivation`:
`SanitizedVersionedTransaction::address_table_lookups`,
`Bank::load_addresses_from_ref` (returning loaded addresses and the min
deactivation slot), and `SanitizedTransaction::try_new` (taking the
transaction, message hash, vote flag, loaded addresses and reserved account
keys). -/
structure BankEnv where
  address_table_lookups : Nat → Option Nat
  load_addresses_from_ref : Nat → Except Nat (Nat × Nat)
  sanitized_try_new : Nat → Nat → Bool → Nat → Nat → Except Nat Nat

/-- `Slot::MAX` (`u64::MAX`). -/
def slotMax : Nat := 2 ^ 64 - 1

/-- Embedded from `lib.rs`:
`MockImmutableDeserializedPacket::resolve_addresses_with_deactivation` — a
transaction with no address table lookups resolves to the default loaded
addresses (modelled as `0`) and `Slot::MAX`; otherwise the bank resolves the
lookups. -/
def resolve_addresses_with_deactivation (env : BankEnv) (transaction : Nat) :
    Except Nat (Nat × Nat) :=
  match env.address_table_lookups transaction with
  | none => Except.ok (0, slotMax)
  | some lookups => env.load_addresses_from_ref lookups

/-- Embedded from `lib.rs`:
`MockImmutableDeserializedPacket::build_sanitized_transaction`.  Rejects
non-vote packets when `votes_only` is set; then resolves the lookup
addresses (any failure becomes `None` via `.ok()?`), then builds the
sanitized transaction (any failure becomes `None` via `.ok()?`). -/
def MockImmutableDeserializedPacket.build_sanitized_transaction (env : BankEnv)
    (self : MockImmutableDeserializedPacket) (votes_only : Bool)
    (reserved_account_keys : Nat) : Option (Nat × Nat) :=
  if votes_only && !self.is_simple_vote then none
  else
    match resolve_addresses_with_deactivation env self.transaction with
    | Except.error _ => none
    | Except.ok (loaded_addresses, deactivation_slot) =>
      match env.sanitized_try_new self.transaction self.message_hash
          self.is_simple_vote loaded_addresses reserved_account_keys with
      | Except.error _ => none
      | Except.ok tx => some (tx, deactivation_slot)

/-- Embedded from `lib.rs`: `PartialEq for MockImmutableDeserializedPacket`
("PartialEq MUST be consistent with PartialOrd and Ord"). -/
def MockImmutableDeserializedPacket.eq (a b : MockImmutableDeserializedPacket) : Bool :=
  a.compute_unit_price == b.compute_unit_price

/-- Embedded from `lib.rs`: `Ord::cmp for MockImmutableDeserializedPacket`. -/
def MockImmutableDeserializedPacket.cmp (a b : MockImmutableDeserializedPacket) : Ordering :=
  compare a.compute_unit_price b.compute_unit_price

/-- Embedded from `lib.rs`: `PartialOrd::partial_cmp for
MockImmutableDeserializedPacket`, which is `Some(self.cmp(other))`. -/
def MockImmutableDeserializedPacket.partCmp (a b : MockImmutableDeserializedPacket) :
    Option Ordering :=
  some (a.cmp b)

/-! ### Concrete sample values used by the witnesses -/

/-- A packet with no readable data. -/
def packetNoData : Packet := { data := fun _ => none, is_simple_vote_tx := false }

/-- A simple-vote packet whose data is empty but readable. -/
def votePacket : Packet := { data := fun _ => some [], is_simple_vote_tx := true }

/-- An environment in which every external call succeeds and the compute
budget reports a nonzero price. -/
def okPacketEnv : PacketEnv :=
  { deserialize_slice := fun _ => Except.ok 0
    sanitized_try_from := fun v => Except.ok v
    decode_shortu16_len := fun _ => some (0, 0)
    hash_raw_message := fun _ => 0
    process_compute_budget_instructions := fun _ =>
      Except.ok { compute_unit_price := 7, compute_unit_limit := 5 } }

/-- A bank environment whose address resolution always fails. -/
def resolveFailBankEnv : BankEnv :=
  { address_table_lookups := fun _ => some 0
    load_addresses_from_ref := fun _ => Except.error 0
    sanitized_try_new := fun _ _ _ _ _ => Except.ok 0 }

/-- A bank environment in which every external call succeeds. -/
def okBankEnv : BankEnv :=
  { address_table_lookups := fun _ => none
    load_addresses_from_ref := fun _ => Except.ok (0, 0)
    sanitized_try_new := fun _ _ _ _ _ => Except.ok 0 }

/-- A non-vote deserialized packet. -/
def nonVotePkt : MockImmutableDeserializedPacket :=
  { original_packet := packetNoData
    transaction := 0
    message_hash := 0
    is_simple_vote := false
    compute_unit_price := 5
    compute_unit_limit := 0 }

/-- A deserialized packet equal in compute unit price to `nonVotePkt` but
with different contents (a different message hash). -/
def nonVotePkt' : MockImmutableDeserializedPacket :=
  { original_packet := packetNoData
    transaction := 0
    message_hash := 1
    is_simple_vote := false
    compute_unit_price := 5
    compute_unit_limit := 0 }

/-! ## Theorems -/

/-! ### Order properties of Priority Identifiers -/

theorem sortsBefore_irrefl (a : TransactionPriorityId) : a.sortsBefore a = false := by
  simp [TransactionPriorityId.sortsBefore]

theorem sortsBefore_trans {a b c : TransactionPriorityId}
    (hab : a.sortsBefore b = true) (hbc : b.sortsBefore c = true) :
    a.sortsBefore c = true := by
  revert hab hbc
  simp only [TransactionPriorityId.sortsBefore, Bool.or_eq_true, Bool.and_eq_true,
    decide_eq_true_eq, beq_iff_eq]
  omega

theorem sortsBefore_asymm {a b : TransactionPriorityId}
    (hab : a.sortsBefore b = true) : b.sortsBefore a = false := by
  revert hab
  simp only [TransactionPriorityId.sortsBefore, Bool.or_eq_true, Bool.and_eq_true,
    decide_eq_true_eq, beq_iff_eq, Bool.or_eq_false_iff, Bool.and_eq_false_iff,
    decide_eq_false_iff_not, beq_eq_false_iff_ne, ne_eq]
  omega

theorem sortsBefore_total {a b : TransactionPriorityId} (hne : a ≠ b) :
    a.sortsBefore b = true ∨ b.sortsBefore a = true := by
  cases a with
  | mk pa sa =>
    cases b with
    | mk pb sb =>
      simp only [ne_eq, TransactionPriorityId.mk.injEq, not_and] at hne
      simp only [TransactionPriorityId.sortsBefore, Bool.or_eq_true, Bool.and_eq_true,
        decide_eq_true_eq, beq_iff_eq]
      by_cases hp : pa = pb
      · subst hp
        have hs : sa ≠ sb := fun hs => hne rfl hs
        omega
      · omega

theorem sortsBefore_false_trans {a b c : TransactionPriorityId}
    (hab : a.sortsBefore b = false) (hbc : b.sortsBefore c = false) :
    a.sortsBefore c = false := by
  revert hab hbc
  simp only [TransactionPriorityId.sortsBefore, Bool.or_eq_false_iff, Bool.and_eq_false_iff,
    decide_eq_false_iff_not, beq_eq_false_iff_ne, ne_eq, Bool.and_eq_true,
    decide_eq_true_eq, beq_iff_eq]
  omega

theorem sortsBefore_of_priority_lt {a b : TransactionPriorityId}
    (h : b.priority < a.priority) : a.sortsBefore b = true := by
  simp only [TransactionPriorityId.sortsBefore, Bool.or_eq_true, Bool.and_eq_true,
    decide_eq_true_eq, beq_iff_eq]
  omega

theorem sortsBefore_of_sequence_lt {a b : TransactionPriorityId}
    (hp : a.priority = b.priority) (hs : a.sequence < b.sequence) :
    a.sortsBefore b = true := by
  simp only [TransactionPriorityId.sortsBefore, Bool.or_eq_true, Bool.and_eq_true,
    decide_eq_true_eq, beq_iff_eq]
  omega

/-- Claim C2: the comparison on Priority Identifiers (pairs of priority and
sequence number) is a strict total order: irreflexive, transitive,
asymmetric, total on distinct identifiers; the identifier with higher
priority sorts first, and for equal priorities the one with the lower
sequence number sorts first. -/
theorem claim_C2_priority_id_strict_total_order :
    (∀ a : TransactionPriorityId, a.sortsBefore a = false) ∧
    (∀ a b c : TransactionPriorityId,
      a.sortsBefore b = true → b.sortsBefore c = true → a.sortsBefore c = true) ∧
    (∀ a b : TransactionPriorityId, a.sortsBefore b = true → b.sortsBefore a = false) ∧
    (∀ a b : TransactionPriorityId, a ≠ b →
      a.sortsBefore b = true ∨ b.sortsBefore a = true) ∧
    (∀ a b : TransactionPriorityId, b.priority < a.priority → a.sortsBefore b = true) ∧
    (∀ a b : TransactionPriorityId, a.priority = b.priority →
      a.sequence < b.sequence → a.sortsBefore b = true) :=
  ⟨sortsBefore_irrefl,
   fun _ _ _ hab hbc => sortsBefore_trans hab hbc,
   fun _ _ hab => sortsBefore_asymm hab,
   fun _ _ hne => sortsBefore_total hne,
   fun _ _ h => sortsBefore_of_priority_lt h,
   fun _ _ hp hs => sortsBefore_of_sequence_lt hp hs⟩

/-- Witness for C2 at concrete identifiers. -/
theorem claim_C2_witness :
    TransactionPriorityId.sortsBefore ⟨9, 4⟩ ⟨3, 1⟩ = true :=
  claim_C2_priority_id_strict_total_order.2.2.2.2.1 ⟨9, 4⟩ ⟨3, 1⟩ (by decide)

/-! ### The bounded priority queue -/

theorem tidWorse_cases (a b : TransactionPriorityId) :
    tidWorse a b = a ∨ tidWorse a b = b := by
  unfold tidWorse
  split
  · exact Or.inr rfl
  · exact Or.inl rfl

theorem tidWorse_notBefore_left (a b : TransactionPriorityId) :
    (tidWorse a b).sortsBefore a = false := by
  unfold tidWorse
  by_cases h : a.sortsBefore b = true
  · simp only [h, if_true]
    exact sortsBefore_asymm h
  · simp only [h, if_false]
    exact sortsBefore_irrefl a

theorem tidWorse_notBefore_right (a b : TransactionPriorityId) :
    (tidWorse a b).sortsBefore b = false := by
  unfold tidWorse
  by_cases h : a.sortsBefore b = true
  · simp only [h, if_true]
    exact sortsBefore_irrefl b
  · simp only [h, if_false]
    simpa using h

theorem foldl_tidWorse_mem : ∀ (xs : List TransactionPriorityId) (x : TransactionPriorityId),
    xs.foldl tidWorse x ∈ x :: xs := by
  intro xs
  induction xs with
  | nil => intro x; simp
  | cons z rest ih =>
    intro x
    have h := ih (tidWorse x z)
    rcases List.mem_cons.mp h with h1 | h1
    · rcases tidWorse_cases x z with h2 | h2
      · rw [List.foldl_cons, h1, h2]; exact List.mem_cons_self _ _
      · rw [List.foldl_cons, h1, h2]
        exact List.mem_cons_of_mem _ (List.mem_cons_self _ _)
    · rw [List.foldl_cons]
      exact List.mem_cons_of_mem _ (List.mem_cons_of_mem _ h1)

theorem foldl_tidWorse_minimal :
    ∀ (xs : List TransactionPriorityId) (x y : TransactionPriorityId),
    y ∈ x :: xs → (xs.foldl tidWorse x).sortsBefore y = false := by
  intro xs
  induction xs with
  | nil =>
    intro x y hy
    rcases List.mem_cons.mp hy with h | h
    · subst h; simpa using sortsBefore_irrefl y
    · cases h
  | cons z rest ih =>
    intro x y hy
    rw [List.foldl_cons]
    rcases List.mem_cons.mp hy with h | h
    · subst h
      exact sortsBefore_false_trans
        (ih (tidWorse y z) _ (List.mem_cons_self _ _))
        (tidWorse_notBefore_left y z)
    · rcases List.mem_cons.mp h with h1 | h1
      · subst h1
        exact sortsBefore_false_trans
          (ih (tidWorse x y) _ (List.mem_cons_self _ _))
          (tidWorse_notBefore_right x y)
      · exact ih (tidWorse x z) y (List.mem_cons_of_mem _ h1)

theorem queueMin_mem {q : List TransactionPriorityId} {m : TransactionPriorityId}
    (h : queueMin q = some m) : m ∈ q := by
  cases q with
  | nil => cases h
  | cons x xs =>
    simp only [queueMin, Option.some.injEq] at h
    rw [← h]
    exact foldl_tidWorse_mem xs x

theorem queueMin_minimal {q : List TransactionPriorityId} {m : TransactionPriorityId}
    (h : queueMin q = some m) : ∀ y ∈ q, m.sortsBefore y = false := by
  cases q with
  | nil => cases h
  | cons x xs =>
    simp only [queueMin, Option.some.injEq] at h
    intro y hy
    rw [← h]
    exact foldl_tidWorse_minimal xs x y hy

theorem queueMin_none {q : List TransactionPriorityId} (h : queueMin q = none) : q = [] := by
  cases q with
  | nil => rfl
  | cons x xs => cases h

theorem boundedQueuePush_length {cap : Nat} {q : List TransactionPriorityId}
    (hq : q.length ≤ cap) (x : TransactionPriorityId) :
    ((boundedQueuePush cap q x).1).length ≤ cap := by
  unfold boundedQueuePush
  by_cases hlt : q.length < cap
  · simp only [hlt, if_true]
    simpa using hlt
  · simp only [hlt, if_false]
    cases hmin : queueMin q with
    | none => exact hq
    | some m =>
      by_cases hx : x.sortsBefore m = true
      · simp only [hx, if_true]
        have hmem : m ∈ q := queueMin_mem hmin
        have hlen : (q.erase m).length = q.length - 1 := List.length_erase_of_mem hmem
        have hpos : 1 ≤ q.length := List.length_pos.mpr (List.ne_nil_of_mem hmem)
        simp only [List.length_cons, hlen]
        omega
      · simp only [hx, if_false]
        exact hq

theorem runQueue_length (cap : Nat) (xs : List TransactionPriorityId) :
    (runQueue cap xs).length ≤ cap := by
  unfold runQueue
  have h : ∀ (ys : List TransactionPriorityId) (q : List TransactionPriorityId),
      q.length ≤ cap →
      (ys.foldl (fun q x => (boundedQueuePush cap q x).1) q).length ≤ cap := by
    intro ys
    induction ys with
    | nil => intro q hq; exact hq
    | cons y rest ih =>
      intro q hq
      exact ih _ (boundedQueuePush_length hq y)
  exact h xs [] (by simp)

/-- Claim C4: the Bounded Priority Queue keeps its size at or below the
configured capacity after any sequence of inserts; at capacity an insert is
admitted exactly when the new entry sorts ahead of the current minimum,
admission evicts exactly the global minimum entry, and a rejected insert
leaves the queue unchanged. -/
theorem claim_C4_bounded_queue_invariant :
    (∀ (cap : Nat) (xs : List TransactionPriorityId), (runQueue cap xs).length ≤ cap) ∧
    (∀ (cap : Nat) (q : List TransactionPriorityId) (x : TransactionPriorityId),
      q.length = cap →
      ((boundedQueuePush cap q x).2.2 = true ↔
        ∃ m, queueMin q = some m ∧ x.sortsBefore m = true)) ∧
    (∀ (cap : Nat) (q : List TransactionPriorityId) (x m : TransactionPriorityId),
      q.length = cap → queueMin q = some m → x.sortsBefore m = true →
      boundedQueuePush cap q x = (x :: q.erase m, some m, true) ∧ m ∈ q ∧
        (∀ y ∈ q, m.sortsBefore y = false)) ∧
    (∀ (cap : Nat) (q : List TransactionPriorityId) (x : TransactionPriorityId),
      q.length = cap → (boundedQueuePush cap q x).2.2 = false →
      (boundedQueuePush cap q x).1 = q ∧ (boundedQueuePush cap q x).2.1 = none) := by
  refine ⟨runQueue_length, ?_, ?_, ?_⟩
  · intro cap q x hcap
    unfold boundedQueuePush
    have hlt : ¬ q.length < cap := by omega
    simp only [hlt, if_false]
    cases hmin : queueMin q with
    | none =>
      simp
    | some m =>
      by_cases hx : x.sortsBefore m = true
      · simp only [hx, if_true]
        exact ⟨fun _ => ⟨m, rfl, hx⟩, fun _ => by trivial⟩
      · simp only [hx, if_false]
        constructor
        · intro h; cases h
        · rintro ⟨m', hm', hx'⟩
          rw [Option.some.injEq] at hm'
          subst hm'
          exact absurd hx' hx
  · intro cap q x m hcap hmin hx
    unfold boundedQueuePush
    have hlt : ¬ q.length < cap := by omega
    simp only [hlt, if_false, hmin, hx, if_true]
    exact ⟨by trivial, queueMin_mem hmin, queueMin_minimal hmin⟩
  · intro cap q x hcap hrej
    unfold boundedQueuePush at hrej ⊢
    have hlt : ¬ q.length < cap := by omega
    simp only [hlt, if_false] at hrej ⊢
    cases hmin : queueMin q with
    | none => exact ⟨rfl, rfl⟩
    | some m =>
      simp only [hmin] at hrej ⊢
      by_cases hx : x.sortsBefore m = true
      · simp only [hx, if_true] at hrej
        cases hrej
      · simp only [hx, if_false]
        exact ⟨rfl, rfl⟩

/-- Witness for C4: Scenario C of the spec — capacity 1, the queue holds
priority 10; inserting priority 20 evicts the minimum (priority 10). -/
theorem claim_C4_witness :
    boundedQueuePush 1 [⟨10, 0⟩] ⟨20, 1⟩ =
      ([⟨20, 1⟩], some ⟨10, 0⟩, true) ∧ (⟨10, 0⟩ : TransactionPriorityId) ∈
        [(⟨10, 0⟩ : TransactionPriorityId)] ∧
      (∀ y ∈ [(⟨10, 0⟩ : TransactionPriorityId)],
        TransactionPriorityId.sortsBefore ⟨10, 0⟩ y = false) := by
  have h := claim_C4_bounded_queue_invariant.2.2.1 1 [⟨10, 0⟩] ⟨20, 1⟩ ⟨10, 0⟩
    (by decide) (by decide) (by decide)
  simpa using h

/-! ### Invariants of the Thread-Aware Account Locks table -/

theorem entryInv_init : entryInv initEntry :=
  ⟨fun h => absurd rfl h, fun _ => rfl⟩

theorem applyEntry_inv {e : LockEntry} (he : entryInv e) (t : Nat) (w : Bool) :
    entryInv (applyEntry e t w) := by
  unfold applyEntry
  by_cases hw : w = true
  · simp only [hw, if_true]
    exact ⟨fun _ => rfl, fun h => absurd rfl h⟩
  · simp only [hw, if_false]
    cases hwr : e.writer with
    | some u => exact he
    | none => exact ⟨fun h => absurd rfl h, fun _ => rfl⟩

theorem lockAccounts_inv {table : LockTable} (ht : ∀ a, entryInv (table a))
    (accs : List (Nat × Bool)) (t : Nat) :
    ∀ a, entryInv (lockAccounts table accs t a) := by
  intro a
  unfold lockAccounts
  cases hreq : requestedWrite accs a with
  | none => exact ht a
  | some w => exact applyEntry_inv (ht a) t w

theorem unlockEntry_inv {e : LockEntry} (he : entryInv e) (t : Nat) :
    entryInv (unlockEntry e t) := by
  unfold unlockEntry
  cases hwr : e.writer with
  | none => exact ⟨fun h => absurd rfl h, fun _ => rfl⟩
  | some u =>
    have hr : e.readers = [] := he.1 (by rw [hwr]; exact fun h => Option.noConfusion h)
    rw [hr]
    exact ⟨fun _ => rfl, fun h => absurd rfl h⟩

theorem lockStep_inv {table : LockTable} (ht : ∀ a, entryInv (table a)) (op : LockOp) :
    ∀ a, entryInv (lockStep table op a) := by
  cases op with
  | tryLock accs t =>
    intro a
    unfold lockStep
    by_cases hc : allCompatible table accs t = true
    · simp only [hc, if_true]
      exact lockAccounts_inv ht accs t a
    · simp only [hc, if_false]
      exact ht a
  | unlock accs t =>
    intro a
    unfold lockStep unlockAccounts
    by_cases hmem : a ∈ accs
    · simp only [hmem, if_true]
      exact unlockEntry_inv (ht a) t
    · simp only [hmem, if_false]
      exact ht a

theorem foldl_lockStep_inv :
    ∀ (ops : List LockOp) (table : LockTable), (∀ a, entryInv (table a)) →
    ∀ a, entryInv ((ops.foldl lockStep table) a) := by
  intro ops
  induction ops with
  | nil => intro table ht a; exact ht a
  | cons op rest ih =>
    intro table ht a
    rw [List.foldl_cons]
    exact ih (lockStep table op) (lockStep_inv ht op) a

/-- Claim C5: at every state of the Thread-Aware Account Locks table
reachable by any sequence of `try_lock`/`unlock` operations, every account's
lock entry satisfies both invariants: a set writer implies an empty reader
set, and a non-empty reader set implies an unset writer. -/
theorem claim_C5_lock_entry_invariant (ops : List LockOp) (a : Nat) :
    entryInv (runLocks ops a) := by
  unfold runLocks
  exact foldl_lockStep_inv ops _ (fun _ => entryInv_init) a

/-- Witness for C5 at a concrete operation sequence and account. -/
theorem claim_C5_witness :
    entryInv (runLocks [LockOp.tryLock [(1, true)] 0, LockOp.unlock [1] 0] 1) :=
  claim_C5_lock_entry_invariant [LockOp.tryLock [(1, true)] 0, LockOp.unlock [1] 0] 1

/-! ### Conflict-freedom of a scheduling pass -/

theorem allCompatible_mem {table : LockTable} {accs : List (Nat × Bool)} {t : Nat}
    (h : allCompatible table accs t = true) {p : Nat × Bool} (hp : p ∈ accs) :
    entryCompatible (table p.1) t p.2 = true :=
  List.all_eq_true.mp h p hp

theorem requestedWrite_of_mem {accs : List (Nat × Bool)} {a : Nat} {w : Bool}
    (h : (a, w) ∈ accs) :
    ∃ w', requestedWrite accs a = some w' ∧ (w = true → w' = true) := by
  unfold requestedWrite
  by_cases h1 : accs.any (fun p => p.1 == a && p.2) = true
  · exact ⟨true, by rw [if_pos h1], fun _ => rfl⟩
  · have h2 : accs.any (fun p => p.1 == a) = true :=
      List.any_eq_true.mpr ⟨(a, w), h, by simp⟩
    refine ⟨false, by rw [if_neg h1, if_pos h2], ?_⟩
    intro hw
    exact absurd (List.any_eq_true.mpr ⟨(a, w), h, by simp [hw]⟩) h1

theorem requestedWrite_mem {accs : List (Nat × Bool)} {a : Nat} {w' : Bool}
    (h : requestedWrite accs a = some w') : (a, w') ∈ accs := by
  unfold requestedWrite at h
  by_cases h1 : accs.any (fun p => p.1 == a && p.2) = true
  · rw [if_pos h1] at h
    obtain ⟨p, hp, hpa⟩ := List.any_eq_true.mp h1
    obtain ⟨pa, pw⟩ := p
    simp only [Bool.and_eq_true, beq_iff_eq] at hpa
    obtain ⟨hpa1, hpa2⟩ := hpa
    have hw' : w' = true := (Option.some.inj h).symm
    subst hpa1; subst hpa2; subst hw'
    exact hp
  · rw [if_neg h1] at h
    by_cases h2 : accs.any (fun p => p.1 == a) = true
    · rw [if_pos h2] at h
      obtain ⟨p, hp, hpa⟩ := List.any_eq_true.mp h2
      obtain ⟨pa, pw⟩ := p
      simp only [beq_iff_eq] at hpa
      subst hpa
      have hw' : w' = false := (Option.some.inj h).symm
      subst hw'
      cases hpw : pw with
      | true =>
        exact absurd (List.any_eq_true.mpr ⟨(pa, pw), hp, by simp [hpw]⟩) h1
      | false =>
        rw [hpw] at hp
        exact hp
    · rw [if_neg h2] at h
      cases h

theorem writerAllows_eq {e : LockEntry} {t u : Nat} (hw : e.writer = some u)
    (h : writerAllows e t = true) : u = t := by
  unfold writerAllows at h
  rw [hw] at h
  simpa using h

theorem entryCompatible_writerAllows {e : LockEntry} {t : Nat} {w : Bool}
    (h : entryCompatible e t w = true) : writerAllows e t = true := by
  unfold entryCompatible at h
  cases w with
  | true =>
    simp only [if_true] at h
    rw [Bool.and_eq_true] at h
    exact h.1
  | false =>
    simpa using h

theorem entryCompatible_readers {e : LockEntry} {t : Nat}
    (h : entryCompatible e t true = true) : ∀ r ∈ e.readers, r = t := by
  unfold entryCompatible at h
  simp only [if_true, Bool.and_eq_true] at h
  intro r hr
  exact beq_iff_eq.mp (List.all_eq_true.mp h.2 r hr)

theorem grant_holdsAccess {table : LockTable} {accs : List (Nat × Bool)} {t : Nat}
    (hc : allCompatible table accs t = true) :
    ∀ p ∈ accs, holdsAccess (lockAccounts table accs t) t p := by
  rintro ⟨a, w⟩ hp
  obtain ⟨w', hw', himp⟩ := requestedWrite_of_mem hp
  cases w with
  | true =>
    have hwt : w' = true := himp rfl
    subst hwt
    show holdsWrite (lockAccounts table accs t) t a
    unfold holdsWrite lockAccounts
    rw [hw']
    unfold applyEntry
    simp
  | false =>
    show holdsRead (lockAccounts table accs t) t a
    unfold holdsRead lockAccounts
    rw [hw']
    cases w' with
    | true =>
      unfold applyEntry
      simp
    | false =>
      unfold applyEntry
      simp only [Bool.false_eq_true, if_false]
      cases hwr : (table a).writer with
      | some u =>
        have hcomp := allCompatible_mem hc hp
        have hu : u = t := writerAllows_eq hwr (entryCompatible_writerAllows hcomp)
        subst hu
        exact Or.inl hwr
      | none =>
        refine Or.inr ?_
        by_cases hmem : t ∈ (table a).readers
        · rw [if_pos hmem]; exact hmem
        · rw [if_neg hmem]; exact List.mem_cons_self _ _

theorem holdsAccess_persist {table : LockTable} {accs2 : List (Nat × Bool)} {t2 t : Nat}
    {p : Nat × Bool} (hc : allCompatible table accs2 t2 = true)
    (hh : holdsAccess table t p) :
    holdsAccess (lockAccounts table accs2 t2) t p := by
  obtain ⟨a, w⟩ := p
  cases hreq : requestedWrite accs2 a with
  | none =>
    cases w with
    | true =>
      show holdsWrite (lockAccounts table accs2 t2) t a
      unfold holdsWrite lockAccounts
      rw [hreq]
      exact hh
    | false =>
      show holdsRead (lockAccounts table accs2 t2) t a
      unfold holdsRead lockAccounts
      rw [hreq]
      exact hh
  | some w2 =>
    have hmem : (a, w2) ∈ accs2 := requestedWrite_mem hreq
    have hcomp : entryCompatible (table a) t2 w2 = true := allCompatible_mem hc hmem
    cases w with
    | true =>
      have hwr : (table a).writer = some t := hh
      have ht2 : t = t2 := writerAllows_eq hwr (entryCompatible_writerAllows hcomp)
      show holdsWrite (lockAccounts table accs2 t2) t a
      unfold holdsWrite lockAccounts
      rw [hreq]
      cases w2 with
      | true =>
        unfold applyEntry
        simp [ht2]
      | false =>
        unfold applyEntry
        simp only [Bool.false_eq_true, if_false]
        rw [hwr]
        exact hwr
    | false =>
      have hread : holdsRead table t a := hh
      show holdsRead (lockAccounts table accs2 t2) t a
      unfold holdsRead lockAccounts
      rw [hreq]
      cases hread with
      | inl hwr =>
        have ht2 : t = t2 := writerAllows_eq hwr (entryCompatible_writerAllows hcomp)
        cases w2 with
        | true =>
          unfold applyEntry
          simp [ht2]
        | false =>
          unfold applyEntry
          simp only [Bool.false_eq_true, if_false]
          rw [hwr]
          exact Or.inl hwr
      | inr hrd =>
        cases w2 with
        | true =>
          have ht2 : t = t2 := entryCompatible_readers hcomp t hrd
          unfold applyEntry
          simp [ht2]
        | false =>
          unfold applyEntry
          simp only [Bool.false_eq_true, if_false]
          cases hwr : (table a).writer with
          | some u => exact Or.inr hrd
          | none =>
            refine Or.inr ?_
            by_cases hmem2 : t2 ∈ (table a).readers
            · rw [if_pos hmem2]; exact hrd
            · rw [if_neg hmem2]; exact List.mem_cons_of_mem _ hrd

theorem holds_blocks_conflict {table : LockTable} {t1 t2 : Nat} (hne : t1 ≠ t2)
    {p q : Nat × Bool} (hp : holdsAccess table t1 p)
    {accs2 : List (Nat × Bool)} (hq : q ∈ accs2)
    (hc : allCompatible table accs2 t2 = true)
    (hconf : accessConflict p q) : False := by
  obtain ⟨a, w1⟩ := p
  obtain ⟨a', w2⟩ := q
  obtain ⟨haa, hw⟩ := hconf
  simp only at haa
  subst haa
  have hcomp : entryCompatible (table a) t2 w2 = true := allCompatible_mem hc hq
  have hread : holdsRead table t1 a := by
    cases w1 with
    | true => exact Or.inl hp
    | false => exact hp
  cases hw with
  | inl hw1 =>
    simp only at hw1
    subst hw1
    have hwr : (table a).writer = some t1 := hp
    exact hne (writerAllows_eq hwr (entryCompatible_writerAllows hcomp))
  | inr hw2 =>
    simp only at hw2
    subst hw2
    cases hread with
    | inl hwr =>
      exact hne (writerAllows_eq hwr (entryCompatible_writerAllows hcomp))
    | inr hrd =>
      exact hne (entryCompatible_readers hcomp t1 hrd)

theorem passStep_preserves {maxBatch : Nat} {st : PassState} (r : SchedReq)
    (h1 : passInv st) (h2 : st.dispatched.Pairwise crossThreadOk) :
    passInv (passStep maxBatch st r) ∧
      (passStep maxBatch st r).dispatched.Pairwise crossThreadOk := by
  unfold passStep
  by_cases hg : allCompatible st.table r.accs r.thread = true ∧
      (batchOf st.dispatched r.thread).length < maxBatch
  · rw [if_pos hg]
    obtain ⟨hc, _⟩ := hg
    constructor
    · intro r' hr' p hp
      rcases List.mem_append.mp hr' with h | h
      · exact holdsAccess_persist hc (h1 r' h p hp)
      · rcases List.mem_singleton.mp h with rfl
        exact grant_holdsAccess hc p hp
    · rw [List.pairwise_append]
      refine ⟨h2, List.pairwise_singleton _ _, ?_⟩
      intro r1 hr1 r2 hr2
      rcases List.mem_singleton.mp hr2 with rfl
      intro hne p hp q hq hconf
      exact holds_blocks_conflict hne (h1 r1 hr1 p hp) hq hc hconf
  · rw [if_neg hg]
    exact ⟨h1, h2⟩

theorem runPass_fold_ok (maxBatch : Nat) (reqs : List SchedReq) :
    ∀ st : PassState, passInv st → st.dispatched.Pairwise crossThreadOk →
    passInv (reqs.foldl (passStep maxBatch) st) ∧
      (reqs.foldl (passStep maxBatch) st).dispatched.Pairwise crossThreadOk := by
  induction reqs with
  | nil => intro st h1 h2; exact ⟨h1, h2⟩
  | cons r rest ih =>
    intro st h1 h2
    rw [List.foldl_cons]
    obtain ⟨h1', h2'⟩ := passStep_preserves r h1 h2
    exact ih _ h1' h2'

/-- Claim C1: within a single scheduling pass, any two transactions
dispatched to two different worker threads have access sets with no
conflicting pair (no write-write, write-read or read-write overlap on a
shared account): locks held by in-flight transactions persist for the whole
pass, so cross-thread concurrent execution is conflict-free by
construction. -/
theorem claim_C1_cross_thread_conflict_free (maxBatch : Nat) (table : LockTable)
    (reqs : List SchedReq) :
    (runPass maxBatch table reqs).dispatched.Pairwise crossThreadOk := by
  unfold runPass
  exact (runPass_fold_ok maxBatch reqs { table := table, dispatched := [] }
    (fun r hr => absurd hr (List.not_mem_nil r)) List.Pairwise.nil).2

/-- Witness for C1 at a concrete pass. -/
theorem claim_C1_witness :
    (runPass 64 (fun _ => initEntry)
      [⟨[(0, true)], 0⟩, ⟨[(0, true)], 1⟩]).dispatched.Pairwise crossThreadOk :=
  claim_C1_cross_thread_conflict_free 64 (fun _ => initEntry)
    [⟨[(0, true)], 0⟩, ⟨[(0, true)], 1⟩]

/-! ### Batch size bound of a scheduling pass -/

theorem batchOf_append (l : List SchedReq) (r : SchedReq) (t : Nat) :
    batchOf (l ++ [r]) t = batchOf l t ++ if r.thread == t then [r] else [] := by
  unfold batchOf
  rw [List.filter_append]
  congr 1
  cases ht : r.thread == t <;> simp [List.filter, ht]

theorem passStep_batch_le {maxBatch : Nat} {st : PassState}
    (h : ∀ t, (batchOf st.dispatched t).length ≤ maxBatch) (r : SchedReq) :
    ∀ t, (batchOf (passStep maxBatch st r).dispatched t).length ≤ maxBatch := by
  intro t
  unfold passStep
  by_cases hg : allCompatible st.table r.accs r.thread = true ∧
      (batchOf st.dispatched r.thread).length < maxBatch
  · rw [if_pos hg]
    show (batchOf (st.dispatched ++ [r]) t).length ≤ maxBatch
    rw [batchOf_append]
    by_cases ht : (r.thread == t) = true
    · rw [if_pos ht]
      have hth : r.thread = t := beq_iff_eq.mp ht
      have hlen := hg.2
      rw [hth] at hlen
      rw [List.length_append]
      simp only [List.length_singleton]
      omega
    · rw [if_neg ht]
      simpa using h t
  · rw [if_neg hg]
    exact h t

theorem runPass_batch_fold (maxBatch : Nat) (reqs : List SchedReq) :
    ∀ st : PassState, (∀ t, (batchOf st.dispatched t).length ≤ maxBatch) →
    ∀ t, (batchOf (reqs.foldl (passStep maxBatch) st).dispatched t).length ≤ maxBatch := by
  induction reqs with
  | nil => intro st h t; exact h t
  | cons r rest ih =>
    intro st h t
    rw [List.foldl_cons]
    exact ih _ (passStep_batch_le h r) t

/-- Claim C7: the maximum batch size of a pass is a configurable capability
(`maxBatch` below), every per-thread batch emitted by a scheduling pass has
at most that many transactions, and in the code the consumer chunk bound is
the constant `TARGET_NUM_TRANSACTIONS_PER_BATCH = 64`. -/
theorem claim_C7_batch_size_bound :
    TARGET_NUM_TRANSACTIONS_PER_BATCH = 64 ∧
    ∀ (maxBatch : Nat) (table : LockTable) (reqs : List SchedReq) (t : Nat),
      (batchOf (runPass maxBatch table reqs).dispatched t).length ≤ maxBatch := by
  refine ⟨rfl, ?_⟩
  intro maxBatch table reqs t
  unfold runPass
  exact runPass_batch_fold maxBatch reqs { table := table, dispatched := [] }
    (fun u => by simp [batchOf]) t

/-- Witness for C7 at a concrete pass. -/
theorem claim_C7_witness :
    (batchOf (runPass TARGET_NUM_TRANSACTIONS_PER_BATCH (fun _ => initEntry)
      [⟨[(0, true)], 0⟩]).dispatched 0).length ≤ TARGET_NUM_TRANSACTIONS_PER_BATCH :=
  claim_C7_batch_size_bound.2 TARGET_NUM_TRANSACTIONS_PER_BATCH (fun _ => initEntry)
    [⟨[(0, true)], 0⟩] 0

/-! ### The In-Flight Tracker -/

theorem foldl_ifStep_nonneg :
    ∀ (ops : List IFOp) (s : IFState) (pend : Nat → Nat × Nat),
    (∀ t, (s t).1 = ((pend t).1 : Int) ∧ (s t).2 = ((pend t).2 : Int)) →
    balancedFrom pend ops = true →
    ∀ t, 0 ≤ ((ops.foldl ifStep s) t).1 ∧ 0 ≤ ((ops.foldl ifStep s) t).2 := by
  intro ops
  induction ops with
  | nil =>
    intro s pend hmir _ t
    rw [List.foldl_nil]
    rcases hmir t with ⟨h1, h2⟩
    constructor
    · rw [h1]; exact Int.natCast_nonneg _
    · rw [h2]; exact Int.natCast_nonneg _
  | cons o rest ih =>
    intro s pend hmir hbal t
    rw [List.foldl_cons]
    unfold balancedFrom at hbal
    by_cases hres : o.isReserve = true
    · rw [if_pos hres] at hbal
      refine ih (ifStep s o)
        (fun u => if u = o.thread then ((pend o.thread).1 + 1, (pend o.thread).2 + o.cost) else pend u)
        ?_ hbal t
      intro u
      unfold ifStep ifReserve
      rw [if_pos hres]
      by_cases hu : u = o.thread
      · simp only [if_pos hu]
        rcases hmir o.thread with ⟨h1, h2⟩
        constructor
        · simp only [h1]; push_cast; ring
        · simp only [h2]; push_cast; ring
      · simp only [if_neg hu]
        exact hmir u
    · rw [if_neg hres] at hbal
      rw [Bool.and_eq_true, Bool.and_eq_true] at hbal
      obtain ⟨⟨hcnt, hcost⟩, hbal'⟩ := hbal
      rw [decide_eq_true_eq] at hcnt
      rw [decide_eq_true_eq] at hcost
      refine ih (ifStep s o)
        (fun u => if u = o.thread then ((pend o.thread).1 - 1, (pend o.thread).2 - o.cost) else pend u)
        ?_ hbal' t
      intro u
      unfold ifStep ifRelease
      rw [if_neg hres]
      by_cases hu : u = o.thread
      · simp only [if_pos hu]
        rcases hmir o.thread with ⟨h1, h2⟩
        constructor
        · simp only [h1]
          omega
        · simp only [h2]
          omega
      · simp only [if_neg hu]
        exact hmir u

/-- Claim C6: after any balanced sequence of reserve and release operations
(each release covered by outstanding reservations, as the spec demands —
an underflow is a programming-error-class fault), the per-thread In-Flight
Tracker counters `count` and `cost_sum` are never negative; and a dispatch
(reserve of `+1` count, `+cost`) followed by its matching completion
(release of `-1` count, `-cost`) returns both counters exactly to their
pre-dispatch values. -/
theorem claim_C6_in_flight_counters :
    (∀ ops : List IFOp, balancedFrom (fun _ => (0, 0)) ops = true →
      ∀ t, 0 ≤ (runIF ops t).1 ∧ 0 ≤ (runIF ops t).2) ∧
    (∀ (s : IFState) (t : Nat) (c : Nat), ifRelease (ifReserve s t c) t c = s) := by
  constructor
  · intro ops hbal t
    unfold runIF
    exact foldl_ifStep_nonneg ops _ (fun _ => (0, 0)) (fun _ => ⟨rfl, rfl⟩) hbal t
  · intro s t c
    funext u
    unfold ifRelease ifReserve
    by_cases hu : u = t
    · subst hu
      simp
    · simp only [if_neg hu]

/-- Witness for C6: a dispatch of cost 3 followed by its completion keeps
both counters non-negative. -/
theorem claim_C6_witness :
    0 ≤ (runIF [⟨true, 0, 3⟩, ⟨false, 0, 3⟩] 0).1 ∧
    0 ≤ (runIF [⟨true, 0, 3⟩, ⟨false, 0, 3⟩] 0).2 :=
  claim_C6_in_flight_counters.1 [⟨true, 0, 3⟩, ⟨false, 0, 3⟩] (by rfl) 0

/-! ### Behaviour of `build_sanitized_transaction` and
`MockImmutableDeserializedPacket::new` -/

/-- Claim C3: whenever address lookup resolution fails for a packet's
transaction, `build_sanitized_transaction` returns `None` (the `.ok()?` on
`resolve_addresses_with_deactivation`), so such a transaction never reaches
the Scheduler. -/
theorem claim_C3_resolution_failure_returns_none (env : BankEnv)
    (self : MockImmutableDeserializedPacket) (votes_only : Bool)
    (reserved_account_keys e : Nat)
    (hres : resolve_addresses_with_deactivation env self.transaction = Except.error e) :
    self.build_sanitized_transaction env votes_only reserved_account_keys = none := by
  unfold MockImmutableDeserializedPacket.build_sanitized_transaction
  by_cases hv : (votes_only && !self.is_simple_vote) = true
  · rw [if_pos hv]
  · rw [if_neg hv, hres]

/-- Witness for C3: a bank whose address loading fails makes
`build_sanitized_transaction` return `None`. -/
theorem claim_C3_witness :
    MockImmutableDeserializedPacket.build_sanitized_transaction resolveFailBankEnv
      nonVotePkt false 0 = none :=
  claim_C3_resolution_failure_returns_none resolveFailBankEnv nonVotePkt false 0 0 rfl

/-- Claim C9: with `votes_only = true`, `build_sanitized_transaction`
returns `None` whenever the packet is not a simple vote, and it can return
`Some` only for simple-vote packets. -/
theorem claim_C9_votes_only_filter (env : BankEnv)
    (self : MockImmutableDeserializedPacket) (reserved_account_keys : Nat) :
    (self.is_simple_vote = false →
      self.build_sanitized_transaction env true reserved_account_keys = none) ∧
    (∀ out, self.build_sanitized_transaction env true reserved_account_keys = some out →
      self.is_simple_vote = true) := by
  constructor
  · intro hvote
    unfold MockImmutableDeserializedPacket.build_sanitized_transaction
    rw [if_pos (by rw [hvote]; rfl)]
  · intro out hsome
    by_cases hvote : self.is_simple_vote = true
    · exact hvote
    · exfalso
      have hvote' : self.is_simple_vote = false := by
        cases h : self.is_simple_vote
        · rfl
        · exact absurd h hvote
      unfold MockImmutableDeserializedPacket.build_sanitized_transaction at hsome
      rw [if_pos (by rw [hvote']; rfl)] at hsome
      cases hsome

/-- Witness for C9: a non-vote packet is rejected when only votes are
accepted. -/
theorem claim_C9_witness :
    MockImmutableDeserializedPacket.build_sanitized_transaction okBankEnv
      nonVotePkt true 0 = none :=
  (claim_C9_votes_only_filter okBankEnv nonVotePkt 0).1 rfl

/-- Claim C8: a successful `MockImmutableDeserializedPacket::new` on a
packet whose metadata marks it a simple vote yields a value whose
`compute_unit_price()` is `0`, regardless of the compute-unit price the
compute budget instructions declare. -/
theorem claim_C8_vote_price_zero (env : PacketEnv) (packet : Packet)
    (res : MockImmutableDeserializedPacket)
    (hvote : packet.is_simple_vote_tx = true)
    (hnew : MockImmutableDeserializedPacket.new env packet = Except.ok res) :
    res.compute_unit_price = 0 := by
  unfold MockImmutableDeserializedPacket.new at hnew
  cases hd : env.deserialize_slice packet with
  | error e1 =>
    simp only [hd] at hnew
    exact Except.noConfusion hnew
  | ok v =>
    simp only [hd] at hnew
    cases hs : env.sanitized_try_from v with
    | error e2 =>
      simp only [hs] at hnew
      exact Except.noConfusion hnew
    | ok st =>
      simp only [hs] at hnew
      cases hm : packet_message env packet with
      | error e3 =>
        simp only [hm] at hnew
        exact Except.noConfusion hnew
      | ok msg =>
        simp only [hm] at hnew
        cases hb : env.process_compute_budget_instructions st with
        | error e4 =>
          simp only [hb] at hnew
          exact Except.noConfusion hnew
        | ok limits =>
          simp only [hb, Except.ok.injEq] at hnew
          rw [← hnew]
          simp [hvote]

/-- Witness for C8: a concrete simple-vote packet built in an environment
declaring compute-unit price 7 still ends with price 0. -/
theorem claim_C8_witness :
    ({ original_packet := votePacket, transaction := 0, message_hash := 0,
       is_simple_vote := true, compute_unit_price := 0,
       compute_unit_limit := 5 } : MockImmutableDeserializedPacket).compute_unit_price
      = 0 :=
  claim_C8_vote_price_zero okPacketEnv votePacket _ rfl rfl

/-- Claim C10: `PartialEq`, `PartialOrd` and `Ord` on
`MockImmutableDeserializedPacket` are mutually consistent and depend only on
the compute unit price: `eq` holds exactly when the prices are equal, `cmp`
is the numeric comparison of the prices, `partial_cmp` always returns
`Some(cmp)`, and two packets with different contents but equal prices
compare as equal. -/
theorem claim_C10_ordering_consistency :
    (∀ a b : MockImmutableDeserializedPacket,
      a.eq b = true ↔ a.compute_unit_price = b.compute_unit_price) ∧
    (∀ a b : MockImmutableDeserializedPacket,
      a.cmp b = compare a.compute_unit_price b.compute_unit_price) ∧
    (∀ a b : MockImmutableDeserializedPacket, a.partCmp b = some (a.cmp b)) ∧
    (nonVotePkt ≠ nonVotePkt' ∧ nonVotePkt.eq nonVotePkt' = true) := by
  refine ⟨?_, fun _ _ => rfl, fun _ _ => rfl, ?_, rfl⟩
  · intro a b
    unfold MockImmutableDeserializedPacket.eq
    exact beq_iff_eq
  · intro h
    exact absurd (congrArg MockImmutableDeserializedPacket.message_hash h) (by decide)

/-- Witness for C10: the consistency of `partial_cmp` with `cmp` at two
concrete packets with different contents. -/
theorem claim_C10_witness :
    nonVotePkt.partCmp nonVotePkt' = some (nonVotePkt.cmp nonVotePkt') :=
  claim_C10_ordering_consistency.2.2.1 nonVotePkt nonVotePkt'

end PrioGraphScheduler
